import Mathlib

/-!
Verification of the NER suggestion pipeline in `src/recipes/openai_ner.py`.

Python strings are modelled as `List Char`; Python's string operations
(`strip`, `split`, `lower`, `find`, slicing) are embedded as executable
functions below. Dict-like records are modelled as structures; the
insertion-ordered `defaultdict(list)` grouping is modelled as an
association list.
-/

namespace OpenAINer

/-- Python's `str.lower()` (character-wise case folding). -/
def lowerStr (s : List Char) : List Char := s.map Char.toLower

/-- Python's `str.strip()`: remove whitespace from both ends. -/
def pyStrip (s : List Char) : List Char :=
  ((s.dropWhile Char.isWhitespace).reverse.dropWhile Char.isWhitespace).reverse

/-- Python's `str.split(sep)` for a one-character separator: split on every
occurrence, keeping empty pieces (`"".split(c) == [""]`). -/
def splitOnChar (sep : Char) : List Char → List (List Char)
  | [] => [[]]
  | c :: rest =>
    let r := splitOnChar sep rest
    if c = sep then [] :: r
    else
      match r with
      | [] => [[c]]
      | g :: gs => (c :: g) :: gs

/-- Python's `str.split(sep, 1)` at the first occurrence of `sep`, for use
under a guard that `sep` occurs: returns the part before the first `sep`
and the part after it. -/
def splitFirst (sep : Char) : List Char → (List Char × List Char)
  | [] => ([], [])
  | c :: rest =>
    if c = sep then ([], rest)
    else
      let p := splitFirst sep rest
      (c :: p.1, p.2)

/-- Python's slice `t[s:e]` for `0 ≤ s, e` (clamping at the ends). -/
def strSlice (t : List Char) (s e : Nat) : List Char :=
  (t.drop s).take (e - s)

/-- `_normalize_label` (src line 88): lower-case the label. -/
def normalize_label (label : List Char) : List Char := lowerStr label

/-- One line of `OpenAISuggester.parse_response` (src lines 257-263): a line
qualifies if it is nonempty and contains a colon; it is split at the first
colon, the label part is lower-cased (not trimmed), and the line is dropped
when the remainder is blank; otherwise the remainder is stripped, split on
commas, and each piece is stripped. -/
def parseLine (line : List Char) : Option (List Char × List (List Char)) :=
  if line ≠ [] ∧ ':' ∈ line then
    if pyStrip (splitFirst ':' line).2 ≠ [] then
      some (normalize_label (splitFirst ':' line).1,
        (splitOnChar ',' (pyStrip (splitFirst ':' line).2)).map pyStrip)
    else none
  else none

/-- `OpenAISuggester.parse_response` (src lines 246-264): strip the whole
response, split it on newlines, and collect the qualifying lines in order. -/
def parse_response (text : List Char) : List (List Char × List (List Char)) :=
  (splitOnChar '\n' (pyStrip text)).filterMap parseLine

/-- Python's negative-index slice `l[-k:]`: the last `k` elements, except
that `l[-0:]` is the whole list. -/
def pySliceLast (l : List α) (k : Nat) : List α :=
  if k = 0 then l else l.drop (l.length - k)

/-- `OpenAISuggester.add_example` (src lines 153-158): append only when
`max_examples` is truthy (nonzero), then, when the length reaches
`max_examples`, keep the slice `examples[-max_examples:]`. -/
def add_example (maxExamples : Nat) (examples : List α) (x : α) : List α :=
  let ex1 := if maxExamples = 0 then examples else examples ++ [x]
  if maxExamples ≤ ex1.length then pySliceLast ex1 maxExamples else ex1

/-- An HTTP response, modelled by its status code and a body tag that
distinguishes the responses of successive calls. -/
structure HttpResponse where
  status : Nat
  body : Nat
deriving DecidableEq, Repr

/-- The retry loop of `_retry429` (src lines 551-554): `i` starts at `-1`
and the loop runs while `i < n` and the status of `r` is 429; the body only
sleeps and increments `i` — it never calls `call_api` again, so `r` never
changes. `remaining` counts the iterations still allowed (`n - i`), and the
returned number counts the sleeps performed. -/
def retryLoop (r : HttpResponse) : Nat → Nat → (HttpResponse × Nat)
  | 0, sleeps => (r, sleeps)
  | remaining + 1, sleeps =>
    if r.status = 429 then retryLoop r remaining (sleeps + 1) else (r, sleeps)

/-- `_retry429` (src lines 542-555), for a call sequence `call_api` whose
`k`-th invocation returns `call_api k`. The code performs exactly one API
call (`r = call_api()`, src line 550) and then loops with `i` from `-1`
while `i < n ∧ r.status == 429`, i.e. at most `n + 1` iterations, sleeping
in each; it returns the response of that single call together with the
number of sleeps and the number of API calls made (always 1). -/
def retry429 (call_api : Nat → HttpResponse) (n : Nat) :
    HttpResponse × Nat × Nat :=
  let r := call_api 0
  let res := retryLoop r (n + 1) 0
  (res.1, res.2, 1)

/-- Modelled from the spec: the retry behaviour §4.6/§8 describe — on a 429
status re-issue the SAME request, up to `n` retries, and return the first
non-429 response, or the last response when retries are exhausted. The
repository contains no such (correct) implementation; `_retry429` is its
slip. `k` is the index of the current attempt. -/
def retrySpec (call_api : Nat → HttpResponse) : Nat → Nat → HttpResponse
  | k, 0 => call_api k
  | k, n + 1 =>
    let r := call_api k
    if r.status = 429 then retrySpec call_api (k + 1) n else r

/-- `_unique` (src lines 616-624): remove duplicates keeping the first
occurrence, via a `seen` accumulator. -/
def uniqueAux (seen : List (List Char)) : List (List Char) → List (List Char)
  | [] => []
  | x :: xs =>
    if x ∈ seen then uniqueAux seen xs else x :: uniqueAux (x :: seen) xs

/-- `_unique` (src lines 616-624) at its call site, with an empty `seen`. -/
def uniqueList (l : List (List Char)) : List (List Char) := uniqueAux [] l

/-- Index of the first occurrence of `sub` in `t`, if any (the occurrence
must fit entirely inside `t`, as in Python's `str.find`). -/
def findSub (sub : List Char) : List Char → Option Nat
  | [] => if sub = [] then some 0 else none
  | c :: rest =>
    if sub.isPrefixOf (c :: rest) then some 0
    else (findSub sub rest).map (· + 1)

/-- Python's `text.find(sub, i)` (as an `Option` instead of `-1`): the least
`j ≥ i` such that `sub` occurs in `text` at position `j`. -/
def pyFind (t sub : List Char) (i : Nat) : Option Nat :=
  (findSub sub (t.drop i)).map (· + i)

/-- The inner scanning loop of `_find_substrings` (src lines 602-612): find
successive non-overlapping occurrences of `substring`, continuing from the
end of the previous match, stopping after the first hit when
`single_match`. `fuel` bounds the iterations; `text.length + 1` suffices
for a nonempty `substring` since `search_from` strictly increases. -/
def scanOcc (t sub : List Char) (single_match : Bool) :
    Nat → Nat → List (Nat × Nat)
  | 0, _ => []
  | fuel + 1, searchFrom =>
    match pyFind t sub searchFrom with
    | none => []
    | some start =>
      (start, start + sub.length) ::
        (if single_match then []
         else scanOcc t sub single_match fuel (start + sub.length))

/-- The filter `[s for s in substrings if s and len(s) > 0]` (src line
595): drop empty substrings. -/
def nonEmptySubs (substrings : List (List Char)) : List (List Char) :=
  substrings.filter (fun s => ¬ s.isEmpty)

/-- The text actually searched (src lines 596-597): lower-cased unless
`case_sensitive`. -/
def canonText (case_sensitive : Bool) (text : List Char) : List Char :=
  if case_sensitive then text else lowerStr text

/-- The substrings actually searched (src lines 595-599): empties dropped,
lower-cased unless `case_sensitive`, then deduplicated keeping first-seen
order. -/
def canonSubs (case_sensitive : Bool) (substrings : List (List Char)) :
    List (List Char) :=
  uniqueList (if case_sensitive then nonEmptySubs substrings
              else (nonEmptySubs substrings).map lowerStr)

/-- `_find_substrings` (src lines 580-613): drop empty substrings,
lower-case text and substrings unless `case_sensitive`, deduplicate, then
scan for each substring in order, appending that substring's occurrences. -/
def find_substrings (text : List Char) (substrings : List (List Char))
    (case_sensitive : Bool) (single_match : Bool) : List (Nat × Nat) :=
  (canonSubs case_sensitive substrings).flatMap (fun sub =>
    scanOcc (canonText case_sensitive text) sub single_match
      ((canonText case_sensitive text).length + 1) 0)

/-- A spaCy token span: a label together with a half-open range
`[start, stop)` of token indices (`Span.start`/`Span.end`). -/
structure TokSpan where
  label : List Char
  start : Nat
  stop : Nat
deriving DecidableEq, Repr

/-- The token length `span.end - span.start` of a span. -/
def spanLen (s : TokSpan) : Nat := s.stop - s.start

/-- Stable insertion into a sorted list: `x` goes before the first `y` with
`le x y`. With a total `le`, `sortBy` below agrees with Python's stable
`sorted`. -/
def insertBy (le : α → α → Bool) (x : α) : List α → List α
  | [] => [x]
  | y :: ys => if le x y then x :: y :: ys else y :: insertBy le x ys

/-- Stable insertion sort (Python's `sorted` for a total preorder `le`,
where `le a b` means `a` may come before `b`). -/
def sortBy (le : α → α → Bool) : List α → List α
  | [] => []
  | x :: xs => insertBy le x (sortBy le xs)

/-- The sort order of spaCy's `filter_spans`: Python key
`(length, -start)` with `reverse=True`, i.e. descending length with ties
broken by ascending start (stable on full ties). -/
def fsLe (a b : TokSpan) : Bool :=
  decide (spanLen b < spanLen a ∨ (spanLen a = spanLen b ∧ a.start ≤ b.start))

/-- Ascending-start order used for the final sort of `filter_spans`. -/
def startLe (a b : TokSpan) : Bool := decide (a.start ≤ b.start)

/-- The token indices `range(span.start, span.end)` covered by a span. -/
def seenRange (s : TokSpan) : List Nat := List.range' s.start (spanLen s)

/-- The selection loop of spaCy's `filter_spans`: keep a span iff neither
its first token nor its last token (`span.end - 1`) is in `seen`, then mark
all its tokens seen. -/
def filterLoop : List TokSpan → List Nat → List TokSpan
  | [], _ => []
  | s :: rest, seen =>
    if s.start ∉ seen ∧ s.stop - 1 ∉ seen then
      s :: filterLoop rest (seen ++ seenRange s)
    else filterLoop rest seen

/-- `spacy.util.filter_spans`, imported at src line 28 and called at src
line 281; the implementation lives in the spaCy dependency (not under
`src/`) and is embedded from its source: sort the spans by key
`(length, -start)` descending (a stable sort), keep each span whose first
and last token indices are unseen while marking its token range seen, and
finally sort the kept spans by ascending start. -/
def filter_spans (spans : List TokSpan) : List TokSpan :=
  sortBy startLe (filterLoop (sortBy fsLe spans) [])

/-- Ascending-start order with ties broken by descending length, as the
spec's §4.3 step 5 words the processing order of overlap resolution. -/
def specLe (a b : TokSpan) : Bool :=
  decide (a.start < b.start ∨ (a.start = b.start ∧ spanLen b ≤ spanLen a))

/-- The keep-if-disjoint loop of the spec's overlap resolution: a span is
kept only if it shares no position with any already-kept span. -/
def resolveLoopSpec : List TokSpan → List Nat → List TokSpan
  | [], _ => []
  | s :: rest, seen =>
    if (seenRange s).all (fun t => t ∉ seen) then
      s :: resolveLoopSpec rest (seen ++ seenRange s)
    else resolveLoopSpec rest seen

/-- Modelled from the spec: overlap resolution exactly as §4.3 step 5 (and
claim C2) word it — "process spans sorted by ascending start (ties broken
by descending length, i.e., longer span first); keep a span only if it
shares no character position with any already-kept span". This is the
claim's procedure, stated for comparison with `filter_spans`, the procedure
the code actually runs. -/
def specResolveOverlaps (spans : List TokSpan) : List TokSpan :=
  resolveLoopSpec (sortBy specLe spans) []

/-- A tokenized document (`spacy.tokens.Doc`): the text together with the
token grid — the `(char_start, char_end)` range of each token, in order. -/
structure PyDoc where
  text : List Char
  toks : List (Nat × Nat)
deriving DecidableEq, Repr

/-- Modelled from the spec: the indices of the tokens wholly inside the
character range `[s, e)`, for spaCy's `Doc.char_span(start, end,
alignment_mode="contract")` (called at src line 274; the implementation
lives in the spaCy dependency). Per §4.3 step 3 a candidate range is
contracted to the run of tokens wholly inside it. -/
def insideToks (toks : List (Nat × Nat)) (s e : Nat) : List Nat :=
  (List.range toks.length).filter (fun k =>
    match toks[k]? with
    | some t => decide (s ≤ t.1 ∧ t.2 ≤ e)
    | none => false)

/-- The contracted token range: the first and one past the last token
wholly inside `[s, e)`, or `none` when there is none. -/
def charSpanContract (toks : List (Nat × Nat)) (s e : Nat) :
    Option (Nat × Nat) :=
  match (insideToks toks s e).head?, (insideToks toks s e).getLast? with
  | some i, some j => some (i, j + 1)
  | _, _ => none

/-- The candidate spans collected by `OpenAISuggester.get_spacy_spans`
(src lines 268-278) before overlap resolution: for each parsed
`(label, phrases)` whose normalized label is allowed, the phrases are
located in the document text (case-insensitive, multi-match) and each
occurrence is snapped to the token grid with the "contract" policy;
occurrences that fail to snap are dropped. -/
def alignCandidates (doc : PyDoc) (response : List Char)
    (labels : List (List Char)) : List TokSpan :=
  (parse_response response).flatMap (fun p =>
    if normalize_label p.1 ∈ labels then
      (find_substrings doc.text p.2 false false).filterMap (fun se =>
        (charSpanContract doc.toks se.1 se.2).map (fun ij =>
          ⟨normalize_label p.1, ij.1, ij.2⟩))
    else [])

/-- `OpenAISuggester.get_spacy_spans` (src lines 266-282): collect the
candidate spans, then resolve overlaps with `filter_spans` (src line
281). -/
def get_spacy_spans (doc : PyDoc) (response : List Char)
    (labels : List (List Char)) : List TokSpan :=
  filter_spans (alignCandidates doc response labels)

/-- Two token spans are disjoint when no token index lies in both. -/
def spanDisj (a b : TokSpan) : Prop :=
  ∀ t, t ∈ seenRange a → t ∈ seenRange b → False

/-- One span record of `format_suggestions` (src lines 199-208): spaCy's
`Span.start_char` is the char start of the span's first token and
`Span.end_char` the char end of its last token; the record stores the
half-open char range, the first token index, and `span.end - 1` as
`token_end`. -/
structure SpanRecord where
  label : List Char
  start : Nat
  stop : Nat
  token_start : Nat
  token_end : Nat
deriving DecidableEq, Repr

/-- `Span.start_char` of a token span over a grid (0 when out of range,
which never occurs for spans produced by `charSpanContract`). -/
def spanStartChar (toks : List (Nat × Nat)) (sp : TokSpan) : Nat :=
  (toks.getD sp.start (0, 0)).1

/-- `Span.end_char` of a token span over a grid. -/
def spanEndChar (toks : List (Nat × Nat)) (sp : TokSpan) : Nat :=
  (toks.getD (sp.stop - 1) (0, 0)).2

/-- The span dict built at src lines 199-208 from one spaCy span. -/
def formatSpan (toks : List (Nat × Nat)) (sp : TokSpan) : SpanRecord :=
  ⟨sp.label, spanStartChar toks sp, spanEndChar toks sp, sp.start, sp.stop - 1⟩

/-- The `"spans"` field produced by `OpenAISuggester.format_suggestions`
(src lines 184-210) for one example: the aligned spans, each formatted as a
span record. -/
def format_suggestions (doc : PyDoc) (response : List Char)
    (labels : List (List Char)) : List SpanRecord :=
  (get_spacy_spans doc response labels).map (formatSpan doc.toks)

end OpenAINer

namespace OpenAINer

/-- A span annotation of a Prodigy example dict: its `"label"`, `"start"`
and `"end"` fields. -/
structure PSpan where
  label : List Char
  start : Nat
  stop : Nat
deriving DecidableEq, Repr

/-- A reviewed Prodigy example dict, with the fields probed by
`PromptExample.is_flagged` and `PromptExample.from_prodigy`: optional
`"flagged"` and `"answer"` and `"text"` fields and a `"spans"` list
(defaulting to empty). -/
structure ProdigyEg where
  flagged : Option Bool
  answer : Option (List Char)
  text : Option (List Char)
  spans : List PSpan
deriving DecidableEq, Repr

/-- `PromptExample` (src lines 51-56): a text and its entities grouped by
label; the insertion-ordered `defaultdict(list)` is an association list. -/
structure PromptExample where
  text : List Char
  entities : List (List Char × List (List Char))
deriving DecidableEq, Repr

/-- `PromptExample.is_flagged` (src lines 58-67): the example's `flagged`
field is `True`, its `answer` is `"accept"`, and it carries a text. -/
def is_flagged (eg : ProdigyEg) : Bool :=
  eg.flagged == some true && eg.answer == some ("accept".toList)
    && eg.text.isSome

/-- Appending a mention to a label's bucket in an insertion-ordered
`defaultdict(list)`: a fresh label goes to the back with a singleton list. -/
def addGroup : List (List Char × List (List Char)) → List Char → List Char →
    List (List Char × List (List Char))
  | [], k, v => [(k, [v])]
  | g :: rest, k, v =>
    if g.1 = k then (g.1, g.2 ++ [v]) :: rest else g :: addGroup rest k v

/-- `PromptExample.from_prodigy` (src lines 69-85): requires a text (the
code raises otherwise, modelled as `none`); for each span whose normalized
label is in `labels`, the mention `text[start:end]` is appended to that
label's bucket. -/
def from_prodigy (eg : ProdigyEg) (labels : List (List Char)) :
    Option PromptExample :=
  match eg.text with
  | none => none
  | some fullText =>
    some ⟨fullText,
      eg.spans.foldl (fun groups sp =>
        if normalize_label sp.label ∈ labels then
          addGroup groups (normalize_label sp.label)
            (strSlice fullText sp.start sp.stop)
        else groups) []⟩

/-- `OpenAISuggester.update` (src lines 147-151): each flagged example is
converted with `from_prodigy` and added with `add_example`; all others are
ignored. (`is_flagged` guarantees a text, so the `none` fallback of
`from_prodigy` is unreachable.) -/
def update (labels : List (List Char)) (maxExamples : Nat)
    (store : List PromptExample) (egs : List ProdigyEg) : List PromptExample :=
  egs.foldl (fun st eg =>
    if is_flagged eg then
      match from_prodigy eg labels with
      | some pe => add_example maxExamples st pe
      | none => st
    else st) store

/-! ## Theorems -/

/-- C1 (code_bug): `_retry429` never re-issues the request. On the call
sequence `429, 429, 200` with `n = 2`, the claim (and the code's own
docstring) say the request is retried and the `OK` (200) result returned,
as `retrySpec` does; the code instead sleeps three times, makes exactly one
API call, and returns the first 429 response. On an all-429 sequence with
`n = 1` the code returns the first (not the final) rate-limited response
after two sleeps. -/
theorem retry429_never_reissues :
    retry429 (fun k => if k < 2 then ⟨429, k⟩ else ⟨200, k⟩) 2
      = (⟨429, 0⟩, 3, 1)
    ∧ retrySpec (fun k => if k < 2 then ⟨429, k⟩ else ⟨200, k⟩) 0 2
      = ⟨200, 2⟩
    ∧ retry429 (fun k => ⟨429, k⟩) 1 = (⟨429, 0⟩, 2, 1)
    ∧ retrySpec (fun k => ⟨429, k⟩) 0 1 = ⟨429, 1⟩
    ∧ retry429 (fun k => if k < 2 then ⟨429, k⟩ else ⟨200, k⟩) 2
      ≠ ((retrySpec (fun k => if k < 2 then ⟨429, k⟩ else ⟨200, k⟩) 0 2), 3, 1) := by
  decide

/-- `add_example` on a state within capacity appends and keeps the trailing
`cap` elements (Python's `examples[-cap:]`, which is the whole list when
`cap = 0`). -/
theorem add_example_eq {α : Type} (cap : Nat) (s : List α) (x : α)
    (h : s.length ≤ cap) (h0 : cap = 0 → s = []) :
    add_example cap s x = (s ++ [x]).drop (s.length + 1 - cap) := by
  by_cases hcap : cap = 0
  · subst hcap
    have hs := h0 rfl
    subst hs
    simp [add_example, pySliceLast]
  · simp only [add_example, pySliceLast, if_neg hcap, List.length_append,
      List.length_cons, List.length_nil]
    split
    · next hle =>
      rfl
    · next hgt =>
      have hz : s.length + 1 - cap = 0 := by omega
      rw [hz, List.drop_zero]

/-- Folding `add_example` over any sequence of additions, starting from a
state within capacity, yields the trailing window of the concatenation. -/
theorem foldl_add_example {α : Type} (cap : Nat) :
    ∀ (xs s : List α), s.length ≤ cap → (cap = 0 → s = []) →
      List.foldl (add_example cap) s xs
        = (s ++ xs).drop (s.length + xs.length - cap) := by
  intro xs
  induction xs with
  | nil =>
    intro s h h0
    simp [Nat.sub_eq_zero_of_le h]
  | cons x xs ih =>
    intro s h h0
    rw [List.foldl_cons, add_example_eq cap s x h h0]
    have h1 : ((s ++ [x]).drop (s.length + 1 - cap)).length ≤ cap := by
      simp only [List.length_drop, List.length_append, List.length_cons,
        List.length_nil]
      omega
    have h2 : cap = 0 → (s ++ [x]).drop (s.length + 1 - cap) = [] := by
      intro hc
      subst hc
      have := h0 rfl
      subst this
      simp
    rw [ih _ h1 h2]
    have hk : s.length + 1 - cap ≤ (s ++ [x]).length := by
      simp only [List.length_append, List.length_cons, List.length_nil]
      omega
    rw [← List.drop_append_of_le_length hk, List.drop_drop]
    have harr : s.length + 1 - cap
        + (((s ++ [x]).drop (s.length + 1 - cap)).length + xs.length - cap)
        = s.length + (x :: xs).length - cap := by
      simp only [List.length_drop, List.length_append, List.length_cons,
        List.length_nil]
      omega
    rw [harr, List.append_assoc]
    simp

/-- C3 (confirmed): starting from an empty store, any sequence of
`add_example` calls leaves exactly the trailing `cap`-window of the added
examples, in original relative order: the state after each add is
`xs.drop (xs.length - cap)`, its length never exceeds the capacity, and a
capacity-0 store stays empty. Adding `cap + 1` examples in particular
leaves `xs.drop 1`, the last `cap` examples. -/
theorem add_example_trailing_window {α : Type} (cap : Nat) (xs : List α) :
    List.foldl (add_example cap) ([] : List α) xs
      = xs.drop (xs.length - cap)
    ∧ (List.foldl (add_example cap) ([] : List α) xs).length ≤ cap
    ∧ List.foldl (add_example 0) ([] : List α) xs = [] := by
  have h := foldl_add_example cap xs [] (by simp) (fun _ => rfl)
  have h0 := foldl_add_example 0 xs [] (by simp) (fun _ => rfl)
  simp only [List.nil_append, List.length_nil, Nat.zero_add] at h h0
  refine ⟨h, ?_, ?_⟩
  · rw [h]
    simp only [List.length_drop]
    omega
  · rw [h0]
    rw [List.drop_eq_nil_iff]
    omega

end OpenAINer

namespace OpenAINer

/-- A line with no colon is skipped by the parser. -/
theorem parseLine_no_colon {line : List Char} (h : ':' ∉ line) :
    parseLine line = none := by
  unfold parseLine
  rw [if_neg]
  intro hc
  exact h hc.2

/-- A line whose part after the first colon is blank is skipped. -/
theorem parseLine_blank_rest {line : List Char}
    (h : pyStrip (splitFirst ':' line).2 = []) : parseLine line = none := by
  unfold parseLine
  split
  · rw [if_neg]
    simp [h]
  · rfl

/-- What a successful `parseLine` tells us about the line. -/
theorem parseLine_some {line lab : List Char} {phs : List (List Char)}
    (h : parseLine line = some (lab, phs)) :
    lab = normalize_label (splitFirst ':' line).1
    ∧ phs = (splitOnChar ',' (pyStrip (splitFirst ':' line).2)).map pyStrip
    ∧ ':' ∈ line ∧ pyStrip (splitFirst ':' line).2 ≠ [] := by
  unfold parseLine at h
  split at h
  · next hcond =>
    split at h
    · next hrest =>
      injection h with h'
      injection h' with h1 h2
      exact ⟨h1.symm, h2.symm, hcond.2, hrest⟩
    · exact absurd h (by simp)
  · exact absurd h (by simp)

/-- C4 (corrected): counterexample — the Response Parser does not trim the
label part. On the single line `"PER : Bob"` the emitted label is
`"per "` (with a trailing space), a label that stripping would change, so
the claim's "case-folds and trims the label part" fails. -/
theorem parse_response_label_untrimmed :
    parse_response ("PER : Bob".toList) = [("per ".toList, ["Bob".toList])]
    ∧ pyStrip ("per ".toList) ≠ ("per ".toList) := by
  decide

/-- C4 (amended): the parser splits the stripped input on newlines, keeps
only nonempty lines containing a colon, splits each at the first colon,
case-folds the label part WITHOUT trimming it, and discards lines whose
remainder is blank; the worked example parses as claimed, and no-colon or
empty-remainder lines contribute nothing. -/
theorem parse_response_amended :
    (parse_response ("PERSON: Alice, Bob\nLOC: Paris".toList)
      = [("person".toList, ["Alice".toList, "Bob".toList]),
         ("loc".toList, ["Paris".toList])])
    ∧ (parse_response
        ("PERSON: Alice, Bob\ngarbage text\nORG:\nLOC: Paris".toList)
      = [("person".toList, ["Alice".toList, "Bob".toList]),
         ("loc".toList, ["Paris".toList])])
    ∧ (∀ line : List Char, ':' ∉ line → parseLine line = none)
    ∧ (∀ line : List Char, pyStrip (splitFirst ':' line).2 = [] →
        parseLine line = none)
    ∧ (∀ (text lab : List Char) (phs : List (List Char)),
        (lab, phs) ∈ parse_response text →
        ∃ line ∈ splitOnChar '\n' (pyStrip text),
          parseLine line = some (lab, phs)
          ∧ lab = normalize_label (splitFirst ':' line).1
          ∧ ':' ∈ line ∧ pyStrip (splitFirst ':' line).2 ≠ []) := by
  refine ⟨by decide, by decide, ?_, ?_, ?_⟩
  · intro line h
    exact parseLine_no_colon h
  · intro line h
    exact parseLine_blank_rest h
  · intro text lab phs hmem
    unfold parse_response at hmem
    rcases List.mem_filterMap.mp hmem with ⟨line, hline, hsome⟩
    have hs := parseLine_some hsome
    exact ⟨line, hline, hsome, hs.1, hs.2.2.1, hs.2.2.2⟩

/-- Witness for `parse_response_amended` at a concrete response. -/
theorem parse_response_amended_witness :
    ∃ line ∈ splitOnChar '\n' (pyStrip ("LOC: Paris".toList)),
      parseLine line = some ("loc".toList, ["Paris".toList])
      ∧ "loc".toList = normalize_label (splitFirst ':' line).1
      ∧ ':' ∈ line ∧ pyStrip (splitFirst ':' line).2 ≠ [] :=
  parse_response_amended.2.2.2.2 ("LOC: Paris".toList) ("loc".toList)
    (["Paris".toList]) (by decide)

/-- C5 (corrected): counterexample — a trailing comma yields an empty piece
that the parser KEEPS (the list comprehension at src line 262 has no
filter), so "truly empty pieces are dropped" fails: `"ORG: a,"` emits the
phrase list `["a", ""]` with the empty string present. -/
theorem parse_response_keeps_empty_piece :
    parse_response ("ORG: a,".toList)
      = [("org".toList, ["a".toList, ([] : List Char)])]
    ∧ ([] : List Char) ∈ ["a".toList, ([] : List Char)] := by
  decide

/-- C5 (amended): for every qualifying line the part after the first colon
is stripped and split on commas, each piece is stripped, and ALL pieces are
kept — including pieces that are empty after trimming (from trailing or
consecutive commas) — with no deduplication. -/
theorem parse_response_phrases_all_segments :
    (∀ (text lab : List Char) (phs : List (List Char)),
        (lab, phs) ∈ parse_response text →
        ∃ line ∈ splitOnChar '\n' (pyStrip text),
          ':' ∈ line
          ∧ phs = (splitOnChar ',' (pyStrip (splitFirst ':' line).2)).map
              pyStrip)
    ∧ parse_response ("ORG: a, a".toList)
      = [("org".toList, ["a".toList, "a".toList])]
    ∧ parse_response ("LOC: x,,y".toList)
      = [("loc".toList, ["x".toList, ([] : List Char), "y".toList])] := by
  refine ⟨?_, by decide, by decide⟩
  intro text lab phs hmem
  unfold parse_response at hmem
  rcases List.mem_filterMap.mp hmem with ⟨line, hline, hsome⟩
  have hs := parseLine_some hsome
  exact ⟨line, hline, hs.2.2.1, hs.2.1⟩

/-- Witness for `parse_response_phrases_all_segments` at a concrete
response with a trailing comma. -/
theorem parse_response_phrases_all_segments_witness :
    ∃ line ∈ splitOnChar '\n' (pyStrip ("ORG: a,".toList)),
      ':' ∈ line
      ∧ ["a".toList, ([] : List Char)]
        = (splitOnChar ',' (pyStrip (splitFirst ':' line).2)).map pyStrip :=
  parse_response_phrases_all_segments.1 ("ORG: a,".toList) ("org".toList)
    (["a".toList, ([] : List Char)]) (by decide)

end OpenAINer

namespace OpenAINer

/-- C2 (corrected): counterexample — the claim's procedure (ascending-start
processing with keep-if-disjoint, `specResolveOverlaps`) keeps the SHORTER
of two overlapping spans when the shorter one starts first, contradicting
the claim's own "the longer one is retained regardless of label"; the
code's `filter_spans` (descending-length processing) keeps the longer one,
so the two procedures also disagree on this input. -/
theorem overlap_resolution_order_counterexample :
    specResolveOverlaps [⟨"x".toList, 0, 3⟩, ⟨"y".toList, 1, 8⟩]
      = [⟨"x".toList, 0, 3⟩]
    ∧ filter_spans [⟨"x".toList, 0, 3⟩, ⟨"y".toList, 1, 8⟩]
      = [⟨"y".toList, 1, 8⟩]
    ∧ spanLen ⟨"x".toList, 0, 3⟩ < spanLen ⟨"y".toList, 1, 8⟩
    ∧ specResolveOverlaps [⟨"x".toList, 0, 3⟩, ⟨"y".toList, 1, 8⟩]
      ≠ filter_spans [⟨"x".toList, 0, 3⟩, ⟨"y".toList, 1, 8⟩] := by
  decide

/-- The selection loop drops the shorter of two overlapping nonempty spans
when the longer one is processed first. -/
theorem filterLoop_pair_drops_shorter (a b : TokSpan)
    (ha : a.start < a.stop) (hb : b.start < b.stop)
    (hov : a.start < b.stop ∧ b.start < a.stop)
    (hlen : spanLen a < spanLen b) :
    filterLoop [b, a] [] = [b] := by
  have hmem : a.start ∈ seenRange b ∨ a.stop - 1 ∈ seenRange b := by
    unfold seenRange spanLen
    unfold spanLen at hlen
    simp only [List.mem_range'_1]
    omega
  simp only [filterLoop, List.nil_append]
  rw [if_pos ⟨List.not_mem_nil _, List.not_mem_nil _⟩, if_neg]
  intro hcontra
  rcases hmem with hm | hm
  · exact hcontra.1 hm
  · exact hcontra.2 hm

/-- C2 (amended): the code's overlap resolution (`spacy.util.filter_spans`)
processes spans sorted by DESCENDING length (ties broken by ascending
start), keeping a span only if its first and last token are unused by the
already-kept spans; consequently, of two overlapping candidate spans of
different lengths, exactly the longer one survives regardless of label and
of input order. -/
theorem filter_spans_longer_wins (a b : TokSpan)
    (ha : a.start < a.stop) (hb : b.start < b.stop)
    (hov : a.start < b.stop ∧ b.start < a.stop)
    (hlen : spanLen a < spanLen b) :
    filter_spans [a, b] = [b] ∧ filter_spans [b, a] = [b] := by
  have hab : fsLe a b = false := by
    simp only [fsLe, decide_eq_false_iff_not]
    omega
  have hba : fsLe b a = true := by
    simp only [fsLe, decide_eq_true_eq]
    omega
  have hdrop := filterLoop_pair_drops_shorter a b ha hb hov hlen
  constructor
  · unfold filter_spans
    rw [show sortBy fsLe [a, b] = [b, a] by simp [sortBy, insertBy, hab]]
    rw [hdrop]
    simp [sortBy, insertBy]
  · unfold filter_spans
    rw [show sortBy fsLe [b, a] = [b, a] by simp [sortBy, insertBy, hba]]
    rw [hdrop]
    simp [sortBy, insertBy]

/-- Witness for `filter_spans_longer_wins`: two overlapping spans of
lengths 3 and 7 covering the same region — only the length-7 span
survives, in either input order. -/
theorem filter_spans_longer_wins_witness :
    filter_spans [⟨"x".toList, 2, 5⟩, ⟨"y".toList, 0, 7⟩]
      = [⟨"y".toList, 0, 7⟩]
    ∧ filter_spans [⟨"y".toList, 0, 7⟩, ⟨"x".toList, 2, 5⟩]
      = [⟨"y".toList, 0, 7⟩] :=
  filter_spans_longer_wins ⟨"x".toList, 2, 5⟩ ⟨"y".toList, 0, 7⟩
    (by decide) (by decide) (by decide) (by decide)

end OpenAINer

namespace OpenAINer

/-- `findSub` soundness: a reported index is a real occurrence. -/
theorem findSub_some {sub : List Char} :
    ∀ {l : List Char} {j : Nat}, findSub sub l = some j →
      sub.isPrefixOf (l.drop j) = true := by
  intro l
  induction l with
  | nil =>
    intro j h
    unfold findSub at h
    split at h
    · next hs =>
      injection h with h'
      subst h'
      subst hs
      rfl
    · exact absurd h (by simp)
  | cons c rest ih =>
    intro j h
    unfold findSub at h
    split at h
    · next hp =>
      injection h with h'
      subst h'
      simpa using hp
    · next hp =>
      rcases Option.map_eq_some'.mp h with ⟨j', hj', hj2⟩
      subst hj2
      simpa [List.drop_succ_cons] using ih hj'

/-- `pyFind` soundness: a hit is at or after the search start and is a real
occurrence. -/
theorem pyFind_some {t sub : List Char} {i s : Nat}
    (h : pyFind t sub i = some s) :
    i ≤ s ∧ sub.isPrefixOf (t.drop s) = true := by
  unfold pyFind at h
  rcases Option.map_eq_some'.mp h with ⟨j, hj, hs⟩
  subst hs
  refine ⟨Nat.le_add_left i j, ?_⟩
  have hp := findSub_some hj
  rw [List.drop_drop] at hp
  rwa [Nat.add_comm] at hp

/-- An occurrence is the exact slice of the searched text. -/
theorem slice_of_isPrefixOf {t sub : List Char} {s : Nat}
    (h : sub.isPrefixOf (t.drop s) = true) :
    strSlice t s (s + sub.length) = sub := by
  have hp : sub <+: t.drop s := List.isPrefixOf_iff_prefix.mp h
  have he := List.prefix_iff_eq_take.mp hp
  unfold strSlice
  rw [Nat.add_sub_cancel_left]
  exact he.symm

/-- Every occurrence reported by the scanning loop is an exact occurrence
of the substring, at or after the search start, with the end offset
exactly `start + length`. -/
theorem scanOcc_mem {t sub : List Char} {sm : Bool} :
    ∀ {fuel i : Nat} {se : Nat × Nat}, se ∈ scanOcc t sub sm fuel i →
      strSlice t se.1 se.2 = sub ∧ se.2 = se.1 + sub.length ∧ i ≤ se.1 := by
  intro fuel
  induction fuel with
  | zero =>
    intro i se h
    exact absurd h (by simp [scanOcc])
  | succ fuel ih =>
    intro i se h
    unfold scanOcc at h
    split at h
    · exact absurd h (by simp)
    · next start hfind =>
      rcases List.mem_cons.mp h with hse | hse
      · subst hse
        have hp := pyFind_some hfind
        exact ⟨slice_of_isPrefixOf hp.2, rfl, hp.1⟩
      · split at hse
        · exact absurd hse (by simp)
        · have h3 := ih hse
          have hp := pyFind_some hfind
          refine ⟨h3.1, h3.2.1, ?_⟩
          calc i ≤ start := hp.1
            _ ≤ start + sub.length := Nat.le_add_right _ _
            _ ≤ se.1 := h3.2.2

/-- With `single_match` the loop reports at most one occurrence. -/
theorem scanOcc_single_le_one (t sub : List Char) (fuel i : Nat) :
    (scanOcc t sub true fuel i).length ≤ 1 := by
  cases fuel with
  | zero => simp [scanOcc]
  | succ fuel =>
    unfold scanOcc
    split
    · simp
    · simp

/-- The slices of a single-match scan: nothing, or exactly the substring. -/
theorem scanOcc_single_slices (t sub : List Char) (fuel i : Nat) :
    (scanOcc t sub true fuel i).map (fun se => strSlice t se.1 se.2) = []
    ∨ (scanOcc t sub true fuel i).map (fun se => strSlice t se.1 se.2)
        = [sub] := by
  match hs : scanOcc t sub true fuel i with
  | [] => exact Or.inl rfl
  | se :: rest =>
    have hlen := scanOcc_single_le_one t sub fuel i
    rw [hs] at hlen
    have hrest : rest = [] := by
      cases rest with
      | nil => rfl
      | cons y ys => simp at hlen
    subst hrest
    have hmem : se ∈ scanOcc t sub true fuel i := by
      rw [hs]
      exact List.mem_cons_self se []
    have hsl := (scanOcc_mem hmem).1
    exact Or.inr (by simp [hsl])

/-- `uniqueAux` yields a subset of its input. -/
theorem uniqueAux_subset : ∀ {l seen : List (List Char)} {x : List Char},
    x ∈ uniqueAux seen l → x ∈ l := by
  intro l
  induction l with
  | nil =>
    intro seen x h
    exact absurd h (by simp [uniqueAux])
  | cons a l ih =>
    intro seen x h
    unfold uniqueAux at h
    split at h
    · exact List.mem_cons_of_mem a (ih h)
    · rcases List.mem_cons.mp h with h | h
      · exact h ▸ List.mem_cons_self a l
      · exact List.mem_cons_of_mem a (ih h)

/-- Elements produced by `uniqueAux` avoid the `seen` accumulator. -/
theorem uniqueAux_not_seen : ∀ {l seen : List (List Char)} {x : List Char},
    x ∈ uniqueAux seen l → x ∉ seen := by
  intro l
  induction l with
  | nil =>
    intro seen x h
    exact absurd h (by simp [uniqueAux])
  | cons a l ih =>
    intro seen x h
    unfold uniqueAux at h
    split at h
    · exact ih h
    · next hnot =>
      rcases List.mem_cons.mp h with h | h
      · subst h
        exact hnot
      · intro hx
        exact (ih h) (List.mem_cons_of_mem a hx)

/-- `uniqueAux` output has no duplicates. -/
theorem uniqueAux_nodup : ∀ (l seen : List (List Char)),
    (uniqueAux seen l).Nodup := by
  intro l
  induction l with
  | nil =>
    intro seen
    simp [uniqueAux]
  | cons a l ih =>
    intro seen
    unfold uniqueAux
    split
    · exact ih seen
    · refine List.nodup_cons.mpr ⟨?_, ih (a :: seen)⟩
      intro hmem
      exact (uniqueAux_not_seen hmem) (List.mem_cons_self a seen)

/-- A `flatMap` each of whose pieces is empty or the singleton of its seed
is a sublist of the seeds. -/
theorem flatMap_single_sublist {α : Type} (F : α → List α) :
    ∀ l : List α, (∀ a ∈ l, F a = [] ∨ F a = [a]) →
      (l.flatMap F).Sublist l := by
  intro l
  induction l with
  | nil => simp
  | cons a l ih =>
    intro h
    rw [List.flatMap_cons]
    rcases h a (List.mem_cons_self a l) with ha | ha
    · rw [ha, List.nil_append]
      exact (ih (fun b hb => h b (List.mem_cons_of_mem a hb))).cons a
    · rw [ha, List.singleton_append]
      exact (ih (fun b hb => h b (List.mem_cons_of_mem a hb))).cons₂ a

/-- Every canonical substring searched by `_find_substrings` is nonempty. -/
theorem canonSubs_ne_nil {cs : Bool} {P : List (List Char)}
    {sub : List Char} (h : sub ∈ canonSubs cs P) : sub ≠ [] := by
  unfold canonSubs uniqueList at h
  have h2 := uniqueAux_subset h
  cases cs with
  | true =>
    rw [if_pos rfl] at h2
    have := (List.mem_filter.mp h2).2
    intro hnil
    subst hnil
    simp at this
  | false =>
    rw [if_neg (by simp)] at h2
    rcases List.mem_map.mp h2 with ⟨p, hp, hlp⟩
    have := (List.mem_filter.mp hp).2
    intro hnil
    rw [← hlp] at hnil
    rcases List.map_eq_nil_iff.mp hnil with rfl
    simp at this

/-- Lower-casing commutes with slicing. -/
theorem lowerStr_strSlice (t : List Char) (s e : Nat) :
    lowerStr (strSlice t s e) = strSlice (lowerStr t) s e := by
  unfold lowerStr strSlice
  rw [List.map_take, List.map_drop]

end OpenAINer

namespace OpenAINer

/-- The scan of one nonempty substring lists its occurrences left to
right: each occurrence starts at or after the end of the previous one, so
starts are strictly increasing. -/
theorem scanOcc_chain {t sub : List Char} (hsub : sub ≠ []) (sm : Bool) :
    ∀ (fuel i : Nat),
      List.Pairwise (fun x y : Nat × Nat => x.2 ≤ y.1 ∧ x.1 < y.1)
        (scanOcc t sub sm fuel i) := by
  intro fuel
  induction fuel with
  | zero =>
    intro i
    simp [scanOcc]
  | succ fuel ih =>
    intro i
    unfold scanOcc
    split
    · simp
    · next start hfind =>
      cases sm with
      | true => simp
      | false =>
        rw [if_neg (by simp)]
        refine List.pairwise_cons.mpr ⟨?_, ih _⟩
        intro y hy
        have h3 := scanOcc_mem hy
        have hl : 0 < sub.length := List.length_pos.mpr hsub
        have h4 := h3.2.2
        exact ⟨h4, by omega⟩

/-- C6 (confirmed): every offset pair returned by `_find_substrings` is an
exact occurrence of one of the requested phrases — equal to the slice
`T[s:e]` up to case folding, and literally equal when `case_sensitive` —
and with `single_match` the searched-slice of each returned occurrence is
distinct, so at most one occurrence per phrase is returned. -/
theorem find_substrings_sound (T : List Char) (P : List (List Char))
    (cs sm : Bool) :
    (∀ se : Nat × Nat, se ∈ find_substrings T P cs sm →
      ∃ p ∈ P, lowerStr (strSlice T se.1 se.2) = lowerStr p
        ∧ (cs = true → strSlice T se.1 se.2 = p))
    ∧ ((find_substrings T P cs true).map
        (fun se => strSlice (canonText cs T) se.1 se.2)).Nodup := by
  constructor
  · intro se hmem
    unfold find_substrings at hmem
    rcases List.mem_flatMap.mp hmem with ⟨sub, hsub, hocc⟩
    have hslice := (scanOcc_mem hocc).1
    unfold canonSubs uniqueList at hsub
    have hsub2 := uniqueAux_subset hsub
    cases cs with
    | true =>
      rw [if_pos rfl] at hsub2
      have hp := (List.mem_filter.mp hsub2).1
      have hsl : strSlice T se.1 se.2 = sub := by
        simpa [canonText] using hslice
      exact ⟨sub, hp, by rw [hsl], fun _ => hsl⟩
    | false =>
      rw [if_neg (by simp)] at hsub2
      rcases List.mem_map.mp hsub2 with ⟨p, hp, hlp⟩
      refine ⟨p, (List.mem_filter.mp hp).1, ?_, fun hcs => by simp at hcs⟩
      have hsl : strSlice (lowerStr T) se.1 se.2 = sub := by
        simpa [canonText] using hslice
      rw [lowerStr_strSlice, hsl]
      exact hlp.symm
  · unfold find_substrings
    rw [List.map_flatMap]
    have hnodup : (canonSubs cs P).Nodup := by
      unfold canonSubs uniqueList
      exact uniqueAux_nodup _ _
    exact List.Nodup.sublist
      (flatMap_single_sublist _ _ (fun sub _ =>
        scanOcc_single_slices (canonText cs T) sub
          ((canonText cs T).length + 1) 0))
      hnodup

/-- Witness for `find_substrings_sound` at the occurrence `(1, 6)` of
`"Alice"` in `"xAlice"` (case-insensitive search). -/
theorem find_substrings_sound_witness :
    ∃ p ∈ [("Alice".toList)],
      lowerStr (strSlice ("xAlice".toList) 1 6) = lowerStr p
      ∧ (false = true → strSlice ("xAlice".toList) 1 6 = p) :=
  (find_substrings_sound ("xAlice".toList) [("Alice".toList)] false false).1
    (1, 6) (by decide)

/-- C7 (corrected): counterexample — with text `"ba"` and phrases
`["a", "b"]`, the Substring Locator returns `[(1,2), (0,1)]`, which is not
sorted by ascending start: occurrences are grouped per phrase, not merged
into source order. -/
theorem find_substrings_not_source_sorted :
    find_substrings ("ba".toList) [("a".toList), ("b".toList)] false false
      = [(1, 2), (0, 1)]
    ∧ ¬ List.Pairwise (fun x y : Nat × Nat => x.1 ≤ y.1)
        (find_substrings ("ba".toList) [("a".toList), ("b".toList)]
          false false) := by
  decide

/-- `uniqueAux` never lengthens a list. -/
theorem uniqueAux_length_le : ∀ (l seen : List (List Char)),
    (uniqueAux seen l).length ≤ l.length := by
  intro l
  induction l with
  | nil =>
    intro seen
    simp [uniqueAux]
  | cons a l ih =>
    intro seen
    unfold uniqueAux
    split
    · exact le_trans (ih seen) (Nat.le_succ _)
    · simpa using ih (a :: seen)

/-- There are at most as many canonical substrings as given phrases. -/
theorem canonSubs_length_le (cs : Bool) (P : List (List Char)) :
    (canonSubs cs P).length ≤ P.length := by
  unfold canonSubs uniqueList
  refine le_trans (uniqueAux_length_le _ _) ?_
  cases cs with
  | true =>
    rw [if_pos rfl]
    exact List.length_filter_le _ _
  | false =>
    rw [if_neg (by simp), List.length_map]
    exact List.length_filter_le _ _

/-- C7 (amended): the Substring Locator's output is the concatenation of
one block per distinct canonical phrase (at most one block per given
phrase, in first-seen phrase order); within each block the occurrences are
in source order — each occurrence starts at or after the end of the
previous one — but the overall sequence is not globally sorted when
occurrences of different phrases interleave in the text. -/
theorem find_substrings_grouped_by_phrase (T : List Char)
    (P : List (List Char)) (cs sm : Bool) :
    find_substrings T P cs sm
      = ((canonSubs cs P).map (fun sub =>
          scanOcc (canonText cs T) sub sm
            ((canonText cs T).length + 1) 0)).flatten
    ∧ (∀ c ∈ (canonSubs cs P).map (fun sub =>
          scanOcc (canonText cs T) sub sm
            ((canonText cs T).length + 1) 0),
        List.Pairwise (fun x y : Nat × Nat => x.2 ≤ y.1 ∧ x.1 < y.1) c)
    ∧ (canonSubs cs P).length ≤ P.length := by
  refine ⟨by rw [find_substrings, List.flatMap_def], ?_, canonSubs_length_le cs P⟩
  intro c hc
  rcases List.mem_map.mp hc with ⟨sub, hsub, hcs⟩
  subst hcs
  exact scanOcc_chain (canonSubs_ne_nil hsub) sm _ _

end OpenAINer

namespace OpenAINer

/-- `addGroup` preserves a per-entry guarantee: labels stay in the active
set, and every stored mention satisfies `Q` for its entry's label. -/
theorem addGroup_good {labels : List (List Char)}
    {Q : List Char → List Char → Prop} :
    ∀ (groups : List (List Char × List (List Char))) (k v : List Char),
      (∀ e ∈ groups, e.1 ∈ labels ∧ ∀ m ∈ e.2, Q e.1 m) →
      k ∈ labels → Q k v →
      ∀ e ∈ addGroup groups k v, e.1 ∈ labels ∧ ∀ m ∈ e.2, Q e.1 m := by
  intro groups
  induction groups with
  | nil =>
    intro k v hg hk hv e he
    unfold addGroup at he
    rcases List.mem_singleton.mp he with rfl
    refine ⟨hk, ?_⟩
    intro m hm
    rcases List.mem_singleton.mp hm with rfl
    exact hv
  | cons g rest ih =>
    intro k v hg hk hv e he
    unfold addGroup at he
    split at he
    · next heq =>
      rcases List.mem_cons.mp he with rfl | hrest
      · refine ⟨(hg g (List.mem_cons_self _ _)).1, ?_⟩
        intro m hm
        rcases List.mem_append.mp hm with hm | hm
        · exact (hg g (List.mem_cons_self _ _)).2 m hm
        · rcases List.mem_singleton.mp hm with rfl
          exact heq ▸ hv
      · exact hg _ (List.mem_cons_of_mem _ hrest)
    · rcases List.mem_cons.mp he with rfl | hrest
      · exact hg _ (List.mem_cons_self _ _)
      · exact ih k v (fun e he => hg e (List.mem_cons_of_mem _ he)) hk hv
          e hrest

/-- The entity-grouping fold of `from_prodigy` only stores active labels,
and every stored mention is the text slice of one of the item's spans
carrying that (normalized) label. -/
theorem foldl_groups_good (labels : List (List Char)) (ft : List Char)
    (allSpans : List PSpan) :
    ∀ (spans : List PSpan) (groups : List (List Char × List (List Char))),
      (∀ sp ∈ spans, sp ∈ allSpans) →
      (∀ e ∈ groups, e.1 ∈ labels
        ∧ ∀ m ∈ e.2, ∃ sp ∈ allSpans,
            normalize_label sp.label = e.1
            ∧ m = strSlice ft sp.start sp.stop) →
      ∀ e ∈ spans.foldl (fun groups sp =>
          if normalize_label sp.label ∈ labels then
            addGroup groups (normalize_label sp.label)
              (strSlice ft sp.start sp.stop)
          else groups) groups,
        e.1 ∈ labels
        ∧ ∀ m ∈ e.2, ∃ sp ∈ allSpans,
            normalize_label sp.label = e.1
            ∧ m = strSlice ft sp.start sp.stop := by
  intro spans
  induction spans with
  | nil =>
    intro groups _ hg e he
    exact hg e he
  | cons sp spans ih =>
    intro groups hsub hg e he
    rw [List.foldl_cons] at he
    refine ih _ (fun q hq => hsub q (List.mem_cons_of_mem _ hq)) ?_ e he
    by_cases hin : normalize_label sp.label ∈ labels
    · rw [if_pos hin]
      exact @addGroup_good labels
        (fun l m => ∃ sp ∈ allSpans, normalize_label sp.label = l
          ∧ m = strSlice ft sp.start sp.stop) groups _ _ hg hin
        ⟨sp, hsub sp (List.mem_cons_self _ _), rfl, rfl⟩
    · rw [if_neg hin]
      exact hg

/-- C8 (confirmed): `update` adds a reviewed item to the store iff it is
flagged, accepted and carries text; the added `PromptExample` keeps the
item's text and retains only entities whose normalized label is active,
each mention being the slice of the item's text at the span's offsets. -/
theorem update_feedback_loop (labels : List (List Char)) (maxEx : Nat)
    (store : List PromptExample) (eg : ProdigyEg) :
    (is_flagged eg = true
      ↔ (eg.flagged = some true ∧ eg.answer = some ("accept".toList)
          ∧ eg.text ≠ none))
    ∧ (is_flagged eg = false → update labels maxEx store [eg] = store)
    ∧ (is_flagged eg = true →
        ∃ pe, from_prodigy eg labels = some pe
          ∧ update labels maxEx store [eg] = add_example maxEx store pe
          ∧ some pe.text = eg.text
          ∧ ∀ e ∈ pe.entities, e.1 ∈ labels
            ∧ ∀ m ∈ e.2, ∃ sp ∈ eg.spans,
                normalize_label sp.label = e.1
                ∧ m = strSlice pe.text sp.start sp.stop) := by
  refine ⟨?_, ?_, ?_⟩
  · simp [is_flagged, Option.isSome_iff_ne_none, and_assoc]
  · intro h
    simp [update, h]
  · intro h
    have htext : eg.text ≠ none := by
      have h' := h
      simp only [is_flagged, Bool.and_eq_true, beq_iff_eq,
        Option.isSome_iff_ne_none] at h'
      exact h'.2
    rcases ho : eg.text with _ | ft
    · exact absurd ho htext
    · have hfp : from_prodigy eg labels
          = some ⟨ft, eg.spans.foldl (fun groups sp =>
              if normalize_label sp.label ∈ labels then
                addGroup groups (normalize_label sp.label)
                  (strSlice ft sp.start sp.stop)
              else groups) []⟩ := by
        unfold from_prodigy
        rw [ho]
      refine ⟨_, hfp, ?_, by simp [ho], ?_⟩
      · simp [update, h, hfp]
      · exact foldl_groups_good labels ft eg.spans eg.spans []
          (fun _ hq => hq) (by simp)

/-- Witness for `update_feedback_loop`: a flagged, accepted item with text
`"Alice Smith"` and one `PERSON` span over `[0,5)` enters the store. -/
theorem update_feedback_loop_witness :
    ∃ pe, from_prodigy
        ⟨some true, some ("accept".toList), some ("Alice Smith".toList),
          [⟨"PERSON".toList, 0, 5⟩]⟩ [("person".toList)] = some pe
      ∧ update [("person".toList)] 2 []
          [⟨some true, some ("accept".toList), some ("Alice Smith".toList),
            [⟨"PERSON".toList, 0, 5⟩]⟩]
        = add_example 2 [] pe
      ∧ some pe.text = (⟨some true, some ("accept".toList),
          some ("Alice Smith".toList),
          [⟨"PERSON".toList, 0, 5⟩]⟩ : ProdigyEg).text
      ∧ ∀ e ∈ pe.entities, e.1 ∈ [("person".toList)]
        ∧ ∀ m ∈ e.2, ∃ sp ∈ (⟨some true, some ("accept".toList),
            some ("Alice Smith".toList),
            [⟨"PERSON".toList, 0, 5⟩]⟩ : ProdigyEg).spans,
            normalize_label sp.label = e.1
            ∧ m = strSlice pe.text sp.start sp.stop :=
  (update_feedback_loop [("person".toList)] 2 []
    ⟨some true, some ("accept".toList), some ("Alice Smith".toList),
      [⟨"PERSON".toList, 0, 5⟩]⟩).2.2 (by decide)

end OpenAINer

namespace OpenAINer

/-- `insertBy` produces a permutation of consing. -/
theorem insertBy_perm (le : α → α → Bool) (x : α) :
    ∀ l : List α, (insertBy le x l).Perm (x :: l) := by
  intro l
  induction l with
  | nil => exact List.Perm.refl _
  | cons y ys ih =>
    unfold insertBy
    split
    · exact List.Perm.refl _
    · exact (ih.cons y).trans (List.Perm.swap x y ys)

/-- `sortBy` permutes its input. -/
theorem sortBy_perm (le : α → α → Bool) :
    ∀ l : List α, (sortBy le l).Perm l := by
  intro l
  induction l with
  | nil => exact List.Perm.refl _
  | cons x xs ih =>
    exact (insertBy_perm le x (sortBy le xs)).trans (ih.cons x)

/-- `insertBy` preserves sortedness for a total transitive `le`. -/
theorem insertBy_sorted {le : α → α → Bool}
    (htot : ∀ a b, le a b = true ∨ le b a = true)
    (htrans : ∀ a b c, le a b = true → le b c = true → le a c = true)
    (x : α) :
    ∀ l, List.Pairwise (fun a b => le a b = true) l →
      List.Pairwise (fun a b => le a b = true) (insertBy le x l) := by
  intro l
  induction l with
  | nil =>
    intro _
    simp [insertBy]
  | cons y ys ih =>
    intro hp
    unfold insertBy
    split
    · next hxy =>
      refine List.pairwise_cons.mpr ⟨?_, hp⟩
      intro z hz
      rcases List.mem_cons.mp hz with rfl | hz
      · exact hxy
      · exact htrans x y z hxy ((List.pairwise_cons.mp hp).1 z hz)
    · next hxy =>
      have hyx : le y x = true := by
        rcases htot x y with h | h
        · exact absurd h hxy
        · exact h
      rcases List.pairwise_cons.mp hp with ⟨hy, hys⟩
      refine List.pairwise_cons.mpr ⟨?_, ih hys⟩
      intro z hz
      have hz2 := (insertBy_perm le x ys).mem_iff.mp hz
      rcases List.mem_cons.mp hz2 with rfl | hz'
      · exact hyx
      · exact hy z hz'

/-- `sortBy` sorts, for a total transitive `le`. -/
theorem sortBy_sorted {le : α → α → Bool}
    (htot : ∀ a b, le a b = true ∨ le b a = true)
    (htrans : ∀ a b c, le a b = true → le b c = true → le a c = true) :
    ∀ l : List α, List.Pairwise (fun a b => le a b = true) (sortBy le l) := by
  intro l
  induction l with
  | nil => simp [sortBy]
  | cons x xs ih => exact insertBy_sorted htot htrans x _ ih

/-- The `filter_spans` sort order is total. -/
theorem fsLe_total : ∀ a b : TokSpan, fsLe a b = true ∨ fsLe b a = true := by
  intro a b
  simp only [fsLe, decide_eq_true_eq]
  omega

/-- The `filter_spans` sort order is transitive. -/
theorem fsLe_trans : ∀ a b c : TokSpan,
    fsLe a b = true → fsLe b c = true → fsLe a c = true := by
  intro a b c
  simp only [fsLe, decide_eq_true_eq]
  omega

/-- The final ascending-start order is total. -/
theorem startLe_total : ∀ a b : TokSpan,
    startLe a b = true ∨ startLe b a = true := by
  intro a b
  simp only [startLe, decide_eq_true_eq]
  omega

/-- The final ascending-start order is transitive. -/
theorem startLe_trans : ∀ a b c : TokSpan,
    startLe a b = true → startLe b c = true → startLe a c = true := by
  intro a b c
  simp only [startLe, decide_eq_true_eq]
  omega

/-- The selection loop keeps a sublist of its input. -/
theorem filterLoop_sublist : ∀ (l : List TokSpan) (seen : List Nat),
    (filterLoop l seen).Sublist l := by
  intro l
  induction l with
  | nil =>
    intro seen
    simp [filterLoop]
  | cons s rest ih =>
    intro seen
    unfold filterLoop
    split
    · exact (ih _).cons₂ s
    · exact (ih _).cons s

/-- Every span surviving `filter_spans` was among the candidates. -/
theorem mem_of_mem_filter_spans {sp : TokSpan} {l : List TokSpan}
    (h : sp ∈ filter_spans l) : sp ∈ l := by
  unfold filter_spans at h
  have h1 := (sortBy_perm startLe _).mem_iff.mp h
  have h2 := (filterLoop_sublist _ _).subset h1
  exact (sortBy_perm fsLe l).mem_iff.mp h2

/-- Token disjointness is symmetric. -/
theorem spanDisj_symm {a b : TokSpan} (h : spanDisj a b) : spanDisj b a :=
  fun t hb ha => h t ha hb

/-- If the shorter of two nonempty spans has neither endpoint inside the
longer one, the two are disjoint. -/
theorem disjoint_of_endpoints {a b : TokSpan}
    (ha : a.start < a.stop) (hb : b.start < b.stop)
    (hlen : spanLen b ≤ spanLen a)
    (h1 : b.start ∉ seenRange a) (h2 : b.stop - 1 ∉ seenRange a) :
    spanDisj a b := by
  intro t hta htb
  unfold spanLen at hlen
  simp only [seenRange, spanLen, List.mem_range'_1] at hta htb h1 h2
  omega

/-- Spans kept by the selection loop have both endpoints outside the
initial `seen` set. -/
theorem filterLoop_endpoints_not_seen :
    ∀ (l : List TokSpan) (seen : List Nat) (sp : TokSpan),
      sp ∈ filterLoop l seen → sp.start ∉ seen ∧ sp.stop - 1 ∉ seen := by
  intro l
  induction l with
  | nil =>
    intro seen sp h
    simp [filterLoop] at h
  | cons s rest ih =>
    intro seen sp h
    unfold filterLoop at h
    split at h
    · next hcond =>
      rcases List.mem_cons.mp h with rfl | h'
      · exact hcond
      · have h2 := ih _ _ h'
        constructor
        · intro hmem
          exact h2.1 (List.mem_append.mpr (Or.inl hmem))
        · intro hmem
          exact h2.2 (List.mem_append.mpr (Or.inl hmem))
    · exact ih _ _ h

/-- On nonempty spans sorted by descending length, the kept spans are
pairwise token-disjoint. -/
theorem filterLoop_pairwise_disj :
    ∀ (l : List TokSpan) (seen : List Nat),
      (∀ sp ∈ l, sp.start < sp.stop) →
      List.Pairwise (fun a b => spanLen b ≤ spanLen a) l →
      List.Pairwise spanDisj (filterLoop l seen) := by
  intro l
  induction l with
  | nil =>
    intro seen _ _
    simp [filterLoop]
  | cons s rest ih =>
    intro seen hne hp
    unfold filterLoop
    split
    · next hcond =>
      refine List.pairwise_cons.mpr
        ⟨?_, ih _ (fun q hq => hne q (List.mem_cons_of_mem _ hq))
          (List.pairwise_cons.mp hp).2⟩
      intro b hb
      have hep := filterLoop_endpoints_not_seen _ _ _ hb
      have hbmem : b ∈ rest := (filterLoop_sublist rest _).subset hb
      have hblen : spanLen b ≤ spanLen s := (List.pairwise_cons.mp hp).1 b hbmem
      have hbne : b.start < b.stop := hne b (List.mem_cons_of_mem _ hbmem)
      have hsne : s.start < s.stop := hne s (List.mem_cons_self _ _)
      refine disjoint_of_endpoints hsne hbne hblen ?_ ?_
      · intro hmem
        exact hep.1 (List.mem_append.mpr (Or.inr hmem))
      · intro hmem
        exact hep.2 (List.mem_append.mpr (Or.inr hmem))
    · exact ih _ (fun q hq => hne q (List.mem_cons_of_mem _ hq))
        (List.pairwise_cons.mp hp).2

/-- On pairwise-disjoint nonempty spans whose tokens avoid `seen`, the
selection loop keeps everything. -/
theorem filterLoop_keeps_all :
    ∀ (l : List TokSpan) (seen : List Nat),
      (∀ sp ∈ l, sp.start < sp.stop) →
      List.Pairwise spanDisj l →
      (∀ sp ∈ l, ∀ t ∈ seenRange sp, t ∉ seen) →
      filterLoop l seen = l := by
  intro l
  induction l with
  | nil =>
    intro seen _ _ _
    rfl
  | cons s rest ih =>
    intro seen hne hp hseen
    have hsne : s.start < s.stop := hne s (List.mem_cons_self _ _)
    have hstart : s.start ∈ seenRange s := by
      simp only [seenRange, spanLen, List.mem_range'_1]
      omega
    have hstop : s.stop - 1 ∈ seenRange s := by
      simp only [seenRange, spanLen, List.mem_range'_1]
      omega
    unfold filterLoop
    rw [if_pos ⟨hseen s (List.mem_cons_self _ _) s.start hstart,
        hseen s (List.mem_cons_self _ _) (s.stop - 1) hstop⟩]
    rw [ih _ (fun q hq => hne q (List.mem_cons_of_mem _ hq))
        (List.pairwise_cons.mp hp).2 ?_]
    intro q hq t ht hmem
    rcases List.mem_append.mp hmem with hmem | hmem
    · exact hseen q (List.mem_cons_of_mem _ hq) t ht hmem
    · exact ((List.pairwise_cons.mp hp).1 q hq) t hmem ht

end OpenAINer

namespace OpenAINer

/-- What membership in `insideToks` means. -/
theorem insideToks_mem {toks : List (Nat × Nat)} {s e k : Nat}
    (h : k ∈ insideToks toks s e) :
    k < toks.length ∧ ∃ t, toks[k]? = some t ∧ s ≤ t.1 ∧ t.2 ≤ e := by
  unfold insideToks at h
  have h1 := List.mem_filter.mp h
  refine ⟨List.mem_range.mp h1.1, ?_⟩
  have h2 := h1.2
  cases ht : toks[k]? with
  | none =>
    simp only [ht] at h2
    exact absurd h2 (by simp)
  | some t =>
    simp only [ht, decide_eq_true_eq] at h2
    exact ⟨t, rfl, h2⟩

/-- `insideToks` is strictly increasing. -/
theorem insideToks_pairwise (toks : List (Nat × Nat)) (s e : Nat) :
    List.Pairwise (· < ·) (insideToks toks s e) :=
  (List.pairwise_lt_range _).filter _

/-- In a strictly increasing list, the head is at most the last element. -/
theorem head_le_getLast_of_lt_sorted :
    ∀ {l : List Nat}, List.Pairwise (· < ·) l → ∀ {a b : Nat},
      l.head? = some a → l.getLast? = some b → a ≤ b := by
  intro l
  induction l with
  | nil =>
    intro _ a b ha
    simp at ha
  | cons x xs ih =>
    intro hp a b ha hb
    rw [List.head?_cons] at ha
    injection ha with ha
    subst ha
    cases xs with
    | nil =>
      simp only [List.getLast?_singleton] at hb
      injection hb with hb
      omega
    | cons y ys =>
      rw [List.getLast?_cons_cons] at hb
      have hbmem : b ∈ y :: ys := by
        rcases List.getLast?_eq_some_iff.mp hb with ⟨zs, hzs⟩
        rw [hzs]
        simp
      have := (List.pairwise_cons.mp hp).1 b hbmem
      omega

/-- What a successful contract alignment yields: a valid nonempty token
index range whose first and last tokens lie wholly inside `[s, e)`. -/
theorem charSpanContract_some {toks : List (Nat × Nat)} {s e i j : Nat}
    (h : charSpanContract toks s e = some (i, j)) :
    i < j ∧ j ≤ toks.length
    ∧ (∃ t, toks[i]? = some t ∧ s ≤ t.1 ∧ t.2 ≤ e)
    ∧ (∃ t, toks[j - 1]? = some t ∧ s ≤ t.1 ∧ t.2 ≤ e) := by
  unfold charSpanContract at h
  split at h
  · next i0 j0 hh hl =>
    injection h with h'
    have hi : i0 = i := congrArg Prod.fst h'
    have hj : j0 + 1 = j := congrArg Prod.snd h'
    have hmi : i0 ∈ insideToks toks s e :=
      List.mem_of_mem_head? (Option.mem_def.mpr hh)
    have hmj : j0 ∈ insideToks toks s e := by
      rcases List.getLast?_eq_some_iff.mp hl with ⟨zs, hzs⟩
      rw [hzs]
      simp
    have hij : i0 ≤ j0 :=
      head_le_getLast_of_lt_sorted (insideToks_pairwise toks s e) hh hl
    have hfi := insideToks_mem hmi
    have hfj := insideToks_mem hmj
    have hbi := hfi.1
    have hbj := hfj.1
    subst hi
    subst hj
    refine ⟨by omega, by omega, hfi.2, ?_⟩
    have hsub : j0 + 1 - 1 = j0 := by omega
    rw [hsub]
    exact hfj.2
  · exact absurd h (by simp)

end OpenAINer

namespace OpenAINer

/-- Shape of every candidate span: nonempty token range inside the grid,
with real first and last tokens. -/
theorem mem_alignCandidates {doc : PyDoc} {resp : List Char}
    {labels : List (List Char)} {sp : TokSpan}
    (h : sp ∈ alignCandidates doc resp labels) :
    sp.start < sp.stop ∧ sp.stop ≤ doc.toks.length
    ∧ (∃ t, doc.toks[sp.start]? = some t)
    ∧ (∃ t, doc.toks[sp.stop - 1]? = some t) := by
  unfold alignCandidates at h
  rcases List.mem_flatMap.mp h with ⟨p, _, hsp⟩
  by_cases hin : normalize_label p.1 ∈ labels
  · rw [if_pos hin] at hsp
    rcases List.mem_filterMap.mp hsp with ⟨se, _, hmap⟩
    rcases Option.map_eq_some'.mp hmap with ⟨ij, hc, hij⟩
    obtain ⟨i, j⟩ := ij
    subst hij
    have hfacts := charSpanContract_some hc
    rcases hfacts.2.2.1 with ⟨t1, ht1, _⟩
    rcases hfacts.2.2.2 with ⟨t2, ht2, _⟩
    exact ⟨hfacts.1, hfacts.2.1, ⟨t1, ht1⟩, ⟨t2, ht2⟩⟩
  · rw [if_neg hin] at hsp
    exact absurd hsp (by simp)

/-- Splitting never yields an empty list of pieces. -/
theorem splitOnChar_ne_nil (sep : Char) :
    ∀ l : List Char, splitOnChar sep l ≠ [] := by
  intro l
  cases l with
  | nil => simp [splitOnChar]
  | cons c rest =>
    simp only [splitOnChar]
    split
    · simp
    · split <;> simp

/-- Sorted-by-start, pairwise-disjoint nonempty spans have strictly
increasing starts. -/
theorem pairwise_start_lt {l : List TokSpan}
    (hs : List.Pairwise (fun a b => startLe a b = true) l)
    (hd : List.Pairwise spanDisj l)
    (hne : ∀ sp ∈ l, sp.start < sp.stop) :
    List.Pairwise (fun a b : TokSpan => a.start < b.start) l := by
  refine List.Pairwise.imp_of_mem ?_ (hs.and hd)
  intro a b ha hb hab
  have h1 : a.start ≤ b.start := by
    have h2 := hab.1
    simpa [startLe, decide_eq_true_eq] using h2
  rcases Nat.lt_or_ge a.start b.start with h | h
  · exact h
  · exfalso
    apply hab.2 a.start
    · simp only [seenRange, spanLen, List.mem_range'_1]
      have hna := hne a ha
      omega
    · simp only [seenRange, spanLen, List.mem_range'_1]
      have hnb := hne b hb
      omega

/-- `filter_spans` output on nonempty spans: pairwise token-disjoint and
sorted by ascending start. -/
theorem filter_spans_output {l : List TokSpan}
    (hne : ∀ sp ∈ l, sp.start < sp.stop) :
    List.Pairwise spanDisj (filter_spans l)
    ∧ List.Pairwise (fun a b => startLe a b = true) (filter_spans l) := by
  constructor
  · have hsorted := sortBy_sorted fsLe_total fsLe_trans l
    have hlen : List.Pairwise (fun a b : TokSpan => spanLen b ≤ spanLen a)
        (sortBy fsLe l) := by
      refine hsorted.imp ?_
      intro a b hab
      simp only [fsLe, decide_eq_true_eq] at hab
      omega
    have hne' : ∀ sp ∈ sortBy fsLe l, sp.start < sp.stop := fun sp hsp =>
      hne sp ((sortBy_perm fsLe l).mem_iff.mp hsp)
    have hdisj := filterLoop_pairwise_disj _ [] hne' hlen
    exact (List.Perm.pairwise_iff (fun h => spanDisj_symm h)
      (sortBy_perm startLe _)).mpr hdisj
  · exact sortBy_sorted startLe_total startLe_trans _

/-- `filter_spans` is idempotent on nonempty spans: re-resolving an
already-resolved span set changes nothing. -/
theorem filter_spans_idem {l : List TokSpan}
    (hne : ∀ sp ∈ l, sp.start < sp.stop) :
    filter_spans (filter_spans l) = filter_spans l := by
  have hout := filter_spans_output hne
  have hneo : ∀ sp ∈ filter_spans l, sp.start < sp.stop := fun sp h =>
    hne sp (mem_of_mem_filter_spans h)
  have hdisj2 : List.Pairwise spanDisj (sortBy fsLe (filter_spans l)) :=
    (List.Perm.pairwise_iff (fun h => spanDisj_symm h)
      (sortBy_perm fsLe _)).mpr hout.1
  have hne2 : ∀ sp ∈ sortBy fsLe (filter_spans l), sp.start < sp.stop :=
    fun sp hsp => hneo sp ((sortBy_perm fsLe _).mem_iff.mp hsp)
  have hkeep : filterLoop (sortBy fsLe (filter_spans l)) []
      = sortBy fsLe (filter_spans l) :=
    filterLoop_keeps_all _ [] hne2 hdisj2
      (fun sp _ t _ hmem => List.not_mem_nil t hmem)
  have heq1 : filter_spans (filter_spans l)
      = sortBy startLe (sortBy fsLe (filter_spans l)) := by
    unfold filter_spans
    rw [show sortBy fsLe (sortBy startLe (filterLoop (sortBy fsLe l) []))
        = sortBy fsLe (filter_spans l) from rfl, hkeep]
  rw [heq1]
  have hperm : (sortBy startLe (sortBy fsLe (filter_spans l))).Perm
      (filter_spans l) :=
    (sortBy_perm startLe _).trans (sortBy_perm fsLe _)
  have hLs := sortBy_sorted startLe_total startLe_trans
    (sortBy fsLe (filter_spans l))
  have hLd : List.Pairwise spanDisj
      (sortBy startLe (sortBy fsLe (filter_spans l))) :=
    (List.Perm.pairwise_iff (fun h => spanDisj_symm h) hperm).mpr hout.1
  have hLne : ∀ sp ∈ sortBy startLe (sortBy fsLe (filter_spans l)),
      sp.start < sp.stop :=
    fun sp hsp => hneo sp (hperm.mem_iff.mp hsp)
  have hLstrict := pairwise_start_lt hLs hLd hLne
  have hOstrict := pairwise_start_lt hout.2 hout.1 hneo
  haveI : IsAntisymm TokSpan (fun a b => a.start < b.start) :=
    ⟨fun a b h1 h2 => absurd (Nat.lt_trans h1 h2) (Nat.lt_irrefl _)⟩
  exact List.eq_of_perm_of_sorted hperm hLstrict hOstrict

/-- C9 (confirmed): the Span Aligner is deterministic — two runs on equal
inputs give equal span lists — and moreover stable: re-running the overlap
resolution on its own output changes nothing; and the Response Parser is
total and robust — it yields a (possibly empty) list for every input, each
emitted entry carrying at least one phrase, no matter how malformed the
response. -/
theorem aligner_idempotent_parser_robust :
    (∀ (doc doc' : PyDoc) (resp resp' : List Char)
        (labels labels' : List (List Char)),
        doc = doc' → resp = resp' → labels = labels' →
        get_spacy_spans doc resp labels = get_spacy_spans doc' resp' labels')
    ∧ (∀ (doc : PyDoc) (resp : List Char) (labels : List (List Char)),
        filter_spans (get_spacy_spans doc resp labels)
          = get_spacy_spans doc resp labels)
    ∧ (∀ text : List Char, ∀ e ∈ parse_response text, e.2 ≠ []) := by
  refine ⟨?_, ?_, ?_⟩
  · intro doc doc' resp resp' labels labels' h1 h2 h3
    rw [h1, h2, h3]
  · intro doc resp labels
    have hne : ∀ sp ∈ alignCandidates doc resp labels, sp.start < sp.stop :=
      fun sp h => (mem_alignCandidates h).1
    unfold get_spacy_spans
    exact filter_spans_idem hne
  · intro text e he
    rcases List.mem_filterMap.mp he with ⟨line, _, hsome⟩
    obtain ⟨lab, phs⟩ := e
    have hs := parseLine_some hsome
    have hphs := hs.2.1
    intro hnil
    simp only at hnil
    rw [hnil] at hphs
    exact splitOnChar_ne_nil ',' _ (List.map_eq_nil_iff.mp hphs.symm)

/-- Witness for `aligner_idempotent_parser_robust` on a concrete document
and response. -/
theorem aligner_idempotent_parser_robust_witness :
    (get_spacy_spans ⟨"Alice runs".toList, [(0, 5), (6, 10)]⟩
        ("person: Alice".toList) [("person".toList)]
      = get_spacy_spans ⟨"Alice runs".toList, [(0, 5), (6, 10)]⟩
        ("person: Alice".toList) [("person".toList)])
    ∧ ("person".toList, ["Alice".toList]).2 ≠ [] :=
  ⟨aligner_idempotent_parser_robust.1 _ _ _ _ _ _ rfl rfl rfl,
   aligner_idempotent_parser_robust.2.2 ("person: Alice".toList)
     ("person".toList, ["Alice".toList]) (by decide)⟩

end OpenAINer

namespace OpenAINer

/-- C10 (confirmed): every persisted span record stores half-open char
offsets — `start` is the char start of the span's first token and `end`
the char end of its last token — while `token_end` is the inclusive index
of the last token (the token grid's exclusive end minus one), so a
single-token span has `token_start = token_end`. -/
theorem format_suggestions_fields (doc : PyDoc) (response : List Char)
    (labels : List (List Char)) :
    ∀ r ∈ format_suggestions doc response labels,
      ∃ sp ∈ get_spacy_spans doc response labels,
        r = formatSpan doc.toks sp
        ∧ sp.start < sp.stop ∧ sp.stop ≤ doc.toks.length
        ∧ r.token_start = sp.start ∧ r.token_end = sp.stop - 1
        ∧ r.token_start ≤ r.token_end
        ∧ (sp.stop = sp.start + 1 → r.token_start = r.token_end)
        ∧ (∃ t, doc.toks[r.token_start]? = some t ∧ r.start = t.1)
        ∧ (∃ t, doc.toks[r.token_end]? = some t ∧ r.stop = t.2) := by
  intro r hr
  unfold format_suggestions at hr
  rcases List.mem_map.mp hr with ⟨sp, hsp, hfmt⟩
  have hsp' : sp ∈ alignCandidates doc response labels := by
    have h2 := hsp
    unfold get_spacy_spans at h2
    exact mem_of_mem_filter_spans h2
  rcases mem_alignCandidates hsp' with ⟨h1, h2, ⟨t1, ht1⟩, ⟨t2, ht2⟩⟩
  subst hfmt
  refine ⟨sp, hsp, rfl, h1, h2, rfl, rfl, ?_, ?_, ?_, ?_⟩
  · show sp.start ≤ sp.stop - 1
    omega
  · intro hone
    show sp.start = sp.stop - 1
    omega
  · refine ⟨t1, ht1, ?_⟩
    show spanStartChar doc.toks sp = t1.1
    unfold spanStartChar
    rw [List.getD_eq_getElem?_getD, ht1]
    rfl
  · refine ⟨t2, ht2, ?_⟩
    show spanEndChar doc.toks sp = t2.2
    unfold spanEndChar
    rw [List.getD_eq_getElem?_getD, ht2]
    rfl

/-- Witness for `format_suggestions_fields`: the single record produced
for response `"person: Alice"` over the two-token grid of
`"Alice runs"`. -/
theorem format_suggestions_fields_witness :
    ∃ sp ∈ get_spacy_spans ⟨"Alice runs".toList, [(0, 5), (6, 10)]⟩
        ("person: Alice".toList) [("person".toList)],
      (⟨"person".toList, 0, 5, 0, 0⟩ : SpanRecord)
        = formatSpan (⟨"Alice runs".toList,
            [(0, 5), (6, 10)]⟩ : PyDoc).toks sp
      ∧ sp.start < sp.stop
      ∧ sp.stop ≤ (⟨"Alice runs".toList,
          [(0, 5), (6, 10)]⟩ : PyDoc).toks.length
      ∧ (⟨"person".toList, 0, 5, 0, 0⟩ : SpanRecord).token_start = sp.start
      ∧ (⟨"person".toList, 0, 5, 0, 0⟩ : SpanRecord).token_end = sp.stop - 1
      ∧ (⟨"person".toList, 0, 5, 0, 0⟩ : SpanRecord).token_start
          ≤ (⟨"person".toList, 0, 5, 0, 0⟩ : SpanRecord).token_end
      ∧ (sp.stop = sp.start + 1 →
          (⟨"person".toList, 0, 5, 0, 0⟩ : SpanRecord).token_start
            = (⟨"person".toList, 0, 5, 0, 0⟩ : SpanRecord).token_end)
      ∧ (∃ t, (⟨"Alice runs".toList, [(0, 5), (6, 10)]⟩ : PyDoc).toks[
            (⟨"person".toList, 0, 5, 0, 0⟩ : SpanRecord).token_start]?
              = some t
          ∧ (⟨"person".toList, 0, 5, 0, 0⟩ : SpanRecord).start = t.1)
      ∧ (∃ t, (⟨"Alice runs".toList, [(0, 5), (6, 10)]⟩ : PyDoc).toks[
            (⟨"person".toList, 0, 5, 0, 0⟩ : SpanRecord).token_end]?
              = some t
          ∧ (⟨"person".toList, 0, 5, 0, 0⟩ : SpanRecord).stop = t.2) :=
  format_suggestions_fields ⟨"Alice runs".toList, [(0, 5), (6, 10)]⟩
    ("person: Alice".toList) [("person".toList)]
    ⟨"person".toList, 0, 5, 0, 0⟩ (by decide)

end OpenAINer
